import Mathlib

/-!
Verification development for the blogApp command interpreter (src/lab4.py).

The file embeds the in-memory backend of the interpreter: the document
model, the `post` / `comment` / `delete` mutators, the thread assembler
`get_posts_and_comments`, and the renderers of `show` and `find`.
Rendering recursion (`print_comments`) is embedded with an explicit fuel
parameter, since the Python recursion has no structural bound.
-/

namespace Lab4

/-- Characters matched by the regex class `[0-9a-zA-Z]` used in
`process_post` to sanitize titles. -/
def alnum (c : Char) : Bool :=
  ('0' ≤ c && c ≤ '9') || ('a' ≤ c && c ≤ 'z') || ('A' ≤ c && c ≤ 'Z')

/-- Embedding of `re.sub('[^0-9a-zA-Z]+', '_', title)` as the regex
engine's left-to-right scan: an alphanumeric character is kept, and at a
non-alphanumeric character outside a run one underscore is emitted while
further characters of the same (leftmost-longest) run are skipped. The
flag records whether the scan is inside a replaced run. -/
def sanitizeAux : List Char → Bool → List Char
  | [], _ => []
  | c :: cs, inRun =>
    if alnum c then c :: sanitizeAux cs false
    else if inRun then sanitizeAux cs true
    else '_' :: sanitizeAux cs true

/-- The sanitizer of `process_post` on character lists. -/
def sanitizeChars (l : List Char) : List Char := sanitizeAux l false

/-- The title sanitizer of `process_post`, at `String` level. -/
def sanitize (t : String) : String := String.mk (sanitizeChars t.toList)

/-- One stored document (a Python dict in `in_memory_db`): optional keys
are modelled with `Option`. -/
structure Doc where
  type : String
  blogname : String
  userName : String
  title : Option String
  body : String
  permalink : String
  timestamp : String
  tags : Option (List String)
  parent_permalink : Option String
  deleted_by : Option String
  deleted_at : Option String
deriving DecidableEq, Repr

/-- The in-memory store `in_memory_db["blogs"]`: a mapping from blog name
to the list of its documents in insertion order. -/
abbrev Store := List (String × List Doc)

/-- Look up a blog's document list; a missing blog reads as the empty
list (the Python code guards every access with a membership test whose
negative branch behaves like an empty list). -/
def getBlog (s : Store) (b : String) : List Doc :=
  match s.lookup b with
  | some docs => docs
  | none => []

/-- The test `blogname in in_memory_db["blogs"]`. -/
def blogExists (s : Store) (b : String) : Bool := (s.lookup b).isSome

/-- Write a blog's document list, creating the key if absent (dicts
append new keys at the end). -/
def setBlog : Store → String → List Doc → Store
  | [], b, docs => [(b, docs)]
  | (k, v) :: rest, b, docs =>
    if k = b then (k, docs) :: rest else (k, v) :: setBlog rest b docs

/-- The post document built by `process_post`: the permalink is the blog
name, a dot, and the sanitized title; the `tags` key is present only when
the raw tags field is a nonempty string, and then holds the comma-split,
whitespace-trimmed tag list. -/
def makePost (blog user title body tags ts : String) : Doc :=
  { type := "post", blogname := blog, userName := user, title := some title,
    body := body, permalink := blog ++ "." ++ sanitize title, timestamp := ts,
    tags := if tags = "" then none else some ((tags.splitOn ",").map String.trim),
    parent_permalink := none, deleted_by := none, deleted_at := none }

/-- The comment document built by `process_comment`: its permalink is the
command's timestamp, its `parent_permalink` the resolved target. -/
def makeComment (blog plink user body ts : String) : Doc :=
  { type := "comment", blogname := blog, userName := user, title := none,
    body := body, permalink := ts, timestamp := ts,
    tags := none, parent_permalink := some plink,
    deleted_by := none, deleted_at := none }

/-- The parent lookup of `process_comment`: first document of the blog
whose permalink matches, if any. -/
def lookupPermalink (docs : List Doc) (p : String) : Option Doc :=
  docs.find? (fun d => d.permalink == p)

/-- The in-place mutation of `process_delete` on the matched document:
the body becomes the kind-tagged marker and the deletion stamps are set;
all other keys are untouched. -/
def maskDoc (d : Doc) (user ts : String) : Doc :=
  { d with body := "**" ++ d.type ++ " deleted**",
           deleted_by := some user, deleted_at := some ts }

/-- The deletion loop of `process_delete`: mask the first document of the
list whose permalink matches and stop; `none` when nothing matches. -/
def deleteFirst : List Doc → String → String → String → Option (List Doc)
  | [], _, _, _ => none
  | d :: rest, p, user, ts =>
    if d.permalink = p then some (maskDoc d user ts :: rest)
    else match deleteFirst rest p user ts with
      | some rest' => some (d :: rest')
      | none => none

/-- Lexicographic order on character lists, the order Python uses to
compare the (string) timestamps. -/
def leChars : List Char → List Char → Bool
  | [], _ => true
  | _ :: _, [] => false
  | a :: as, b :: bs => if a = b then leChars as bs else decide (a < b)

/-- Sort key of `posts.sort(key=..., reverse=True)`: descending by
timestamp; with ties comparing `true` the stable sort keeps insertion
order, exactly like Python's stable reverse sort. -/
def postsLe (a b : Doc) : Bool := leChars b.timestamp.toList a.timestamp.toList

/-- Sort key of `comments.sort(key=...)`: ascending by timestamp. -/
def commentsLe (a b : Doc) : Bool := leChars a.timestamp.toList b.timestamp.toList

/-- Insertion into an already sorted list: the element goes right before
the first entry it compares `le` to. An element inserted later therefore
never moves ahead of a tied earlier one, which is the stability
guarantee of Python's `list.sort`. -/
def orderedInsert (le : Doc → Doc → Bool) (a : Doc) : List Doc → List Doc
  | [] => [a]
  | b :: l => if le a b then a :: b :: l else b :: orderedInsert le a l

/-- Stable sort modelling Python's `list.sort` with a key function:
sorted output, ties kept in input order (proved below). -/
def sortDocs (le : Doc → Doc → Bool) : List Doc → List Doc
  | [] => []
  | a :: l => orderedInsert le a (sortDocs le l)

/-- Embedding of `get_posts_and_comments` (in-memory branch): the posts
of the blog sorted by timestamp descending, and the comments grouped by
parent permalink after an ascending sort — the per-parent dict lists are
exactly the sorted comment list filtered to one parent key. -/
def getPostsAndComments (b : String) (s : Store) : List Doc × (String → List Doc) :=
  let docs := getBlog s b
  let posts := sortDocs postsLe (docs.filter (fun d => d.type == "post"))
  let comments := sortDocs commentsLe (docs.filter (fun d => d.type == "comment"))
  (posts, fun p => comments.filter (fun c => c.parent_permalink == some p))

/-- Indentation prefix `"  " * indent` of `print_comments`. -/
def indentStr : Nat → String
  | 0 => ""
  | n + 1 => "  " ++ indentStr n

/-- The output lines of the post header block of `process_show`. -/
def postBlock (d : Doc) : List String :=
  ["  - - - -",
   "\ttitle: " ++ d.title.getD "",
   "\tuserName: " ++ d.userName]
  ++ (match d.tags with
      | some ts => if ts.isEmpty then [] else ["\ttags: " ++ String.intercalate ", " ts]
      | none => [])
  ++ ["\ttimestamp: " ++ d.timestamp,
      "\tpermalink: " ++ d.permalink,
      "\tbody:",
      if d.deleted_by.isSome then "\t  **post deleted**" else "\t  " ++ d.body]

/-- The lines one loop iteration of `print_comments` prints for a single
comment before recursing (a blank line, a marker, author, permalink, and
the body or the deletion marker). -/
def commentBlock (c : Doc) (ind : Nat) : List String :=
  ["",
   indentStr ind ++ "    - - - -",
   indentStr ind ++ "\tuserName: " ++ c.userName,
   indentStr ind ++ "\tpermalink: " ++ c.permalink,
   indentStr ind ++ "\tcomment:",
   indentStr ind ++ (if c.deleted_by.isSome then "\t  **comment deleted**" else "\t  " ++ c.body)]

/-- Fuelled embedding of the recursive `print_comments`: for each child
of `p` in the parent grouping, emit its block and recurse on its own
permalink one indent deeper. The Python recursion carries no fuel; the
parameter makes the possibly unbounded recursion a total function, and
the development proves below exactly when the output is independent of
it. -/
def printCommentsFuel : Nat → String → (String → List Doc) → Nat → List String
  | 0, _, _, _ => []
  | fuel + 1, p, cbp, ind =>
    (cbp p).flatMap (fun c => commentBlock c ind ++ printCommentsFuel fuel c.permalink cbp (ind + 1))

/-- Fuel budget the model hands to `show`: strictly more than the number
of documents of the blog, enough for every acyclic reply chain. -/
def showFuel (s : Store) (b : String) : Nat := (getBlog s b).length + 1

/-- Embedding of `process_show`: header, blank line, then for each post
(most recent first) its block, its comment tree from indent 1, and a
blank line. -/
def processShow (b : String) (s : Store) : List String :=
  let pc := getPostsAndComments b s
  ["in " ++ b ++ ":", ""]
  ++ pc.1.flatMap (fun post =>
       postBlock post ++ printCommentsFuel (showFuel s b) post.permalink pc.2 1 ++ [""])

/-- Python's substring test `needle in hay` on character lists. -/
def subLC (n : List Char) : List Char → Bool
  | [] => n.isEmpty
  | c :: t => n.isPrefixOf (c :: t) || subLC n t

/-- Python's substring test on strings: `strIn needle hay`. -/
def strIn (needle hay : String) : Bool := subLC needle.toList hay.toList

/-- The lines `process_find` prints for one matching comment: like a
comment block of `show` but at a fixed indentation. -/
def commentBlockFind (c : Doc) : List String :=
  ["",
   "    - - - -",
   "\tuserName: " ++ c.userName,
   "\tpermalink: " ++ c.permalink,
   "\tcomment:",
   if c.deleted_by.isSome then "\t  **comment deleted**" else "\t  " ++ c.body]

/-- One iteration of the post loop of `process_find` (in-memory branch):
the post is rendered exactly when the search term occurs in its body or
in one of its tags, followed by those of its direct comments whose body
contains the term; otherwise nothing is printed. -/
def findPostBlock (q : String) (cbp : String → List Doc) (post : Doc) : List String :=
  let found := strIn q post.body ||
    (match post.tags with
     | some ts => ts.any (fun tag => strIn q tag)
     | none => false)
  if found then
    postBlock post
    ++ ((cbp post.permalink).filter (fun c => strIn q c.body)).flatMap commentBlockFind
    ++ [""]
  else []

/-- Embedding of `process_find` (in-memory branch): header, then the
filtered post loop over the assembled threads; an unknown blog prints
the header only. -/
def processFind (b q : String) (s : Store) : List String :=
  ["in " ++ b ++ ":", ""]
  ++ (if blogExists s b then
        (getPostsAndComments b s).1.flatMap (findPostBlock q (getPostsAndComments b s).2)
      else [])

/-- A parsed command line (the claims concern the post-parse semantics;
`show` and `find` are renamed because `show` is a Lean keyword). -/
inductive Cmd where
  | post (blog user title body tags ts : String)
  | comment (blog plink user body ts : String)
  | delete (blog plink user ts : String)
  | showCmd (blog : String)
  | findCmd (blog term : String)
deriving DecidableEq, Repr

/-- The diagnostic line printed for an unresolvable permalink. -/
def errNoPermalink (p : String) : String :=
  "Error: No post or comment found with permalink: " ++ p

/-- One interpreter step: the new store, the stdout lines, and the
stderr (diagnostic) lines of processing one command. -/
def step (s : Store) : Cmd → Store × List String × List String
  | .post b u ti bo tg ts =>
    (setBlog s b (getBlog s b ++ [makePost b u ti bo tg ts]), [], [])
  | .comment b p u bo ts =>
    match lookupPermalink (getBlog s b) p with
    | none => (s, [], [errNoPermalink p])
    | some _ => (setBlog s b (getBlog s b ++ [makeComment b p u bo ts]), [], [])
  | .delete b p u ts =>
    match deleteFirst (getBlog s b) p u ts with
    | some docs => (setBlog s b docs, [], [])
    | none => (s, [], [errNoPermalink p])
  | .showCmd b => (s, processShow b s, [])
  | .findCmd b q => (s, processFind b q s, [])

/-- Run a command sequence from a store, keeping only the store. -/
def execCmds : Store → List Cmd → Store
  | s, [] => s
  | s, c :: rest => execCmds (step s c).1 rest

/-! Spec-side sanitizer, for the refinement claim about permalinks. -/

/-- Decomposition of a character list into its maximal runs of
same-classed characters (all alphanumeric or all not), written from the
spec's words to compare with the code's `sanitizeChars`. -/
def specRuns : List Char → List (List Char)
  | [] => []
  | c :: cs =>
    (c :: cs.takeWhile (fun x => alnum x == alnum c)) ::
      specRuns (cs.dropWhile (fun x => alnum x == alnum c))
termination_by l => l.length
decreasing_by
  simp only [List.length_cons]
  exact Nat.lt_succ_of_le (List.dropWhile_sublist _).length_le

/-- The spec's description of the sanitizer: every maximal run of
characters outside `[0-9a-zA-Z]` becomes a single underscore, and
alphanumeric runs are kept. -/
def sanitizeSpec (l : List Char) : List Char :=
  (specRuns l).flatMap (fun r =>
    match r with
    | [] => []
    | c :: _ => if alnum c then r else ['_'])

/-! Basic store lemmas shared by the claim proofs. -/

theorem getBlog_setBlog_self (s : Store) (b : String) (docs : List Doc) :
    getBlog (setBlog s b docs) b = docs := by
  induction s with
  | nil => simp [setBlog, getBlog, List.lookup]
  | cons kv rest ih =>
    obtain ⟨k, v⟩ := kv
    by_cases h : k = b
    · simp [setBlog, h, getBlog, List.lookup]
    · simp only [setBlog, if_neg h]
      simpa [getBlog, List.lookup, beq_false_of_ne (Ne.symm h)] using ih

theorem getBlog_setBlog_ne (s : Store) (b b' : String) (docs : List Doc)
    (h : b' ≠ b) : getBlog (setBlog s b docs) b' = getBlog s b' := by
  induction s with
  | nil => simp [setBlog, getBlog, List.lookup, beq_false_of_ne h]
  | cons kv rest ih =>
    obtain ⟨k, v⟩ := kv
    by_cases hk : k = b
    · subst hk
      simp [setBlog, getBlog, List.lookup, beq_false_of_ne h]
    · simp only [setBlog, if_neg hk]
      by_cases hk' : k = b'
      · simp [getBlog, List.lookup, hk']
      · simpa [getBlog, List.lookup, beq_false_of_ne (Ne.symm hk')] using ih

/-! Equivalence of the code's sanitizer with the spec's wording. -/

theorem sanitizeChars_nil : sanitizeChars [] = [] := rfl

theorem sanitizeAux_true_eq (cs : List Char) :
    sanitizeAux cs true = sanitizeChars (cs.dropWhile fun x => !alnum x) := by
  induction cs with
  | nil => rfl
  | cons c cs ih =>
    by_cases hc : alnum c = true
    · rw [List.dropWhile_cons_of_neg (by simp [hc])]
      simp [sanitizeAux, sanitizeChars, hc]
    · have hc' : alnum c = false := by revert hc; cases alnum c <;> simp
      rw [List.dropWhile_cons_of_pos (by simp [hc'])]
      simpa [sanitizeAux, hc'] using ih

theorem sanitizeChars_cons_alnum {c : Char} (cs : List Char) (hc : alnum c = true) :
    sanitizeChars (c :: cs) = c :: sanitizeChars cs := by
  simp [sanitizeChars, sanitizeAux, hc]

theorem sanitizeChars_cons_not_alnum {c : Char} (cs : List Char) (hc : alnum c = false) :
    sanitizeChars (c :: cs) = '_' :: sanitizeChars (cs.dropWhile fun x => !alnum x) := by
  rw [sanitizeChars, sanitizeAux, if_neg (by simp [hc]), if_neg (by simp)]
  rw [sanitizeAux_true_eq]

theorem specRuns_nil : specRuns [] = [] := by
  rw [specRuns.eq_def]

theorem specRuns_cons (c : Char) (cs : List Char) :
    specRuns (c :: cs) =
      (c :: cs.takeWhile (fun x => alnum x == alnum c)) ::
        specRuns (cs.dropWhile (fun x => alnum x == alnum c)) := by
  rw [specRuns.eq_def]

theorem sanitizeChars_append_alnum (r rest : List Char)
    (h : ∀ x ∈ r, alnum x = true) :
    sanitizeChars (r ++ rest) = r ++ sanitizeChars rest := by
  induction r with
  | nil => rfl
  | cons a r ih =>
    have ha : alnum a = true := h a (List.mem_cons_self a r)
    rw [List.cons_append, sanitizeChars_cons_alnum _ ha,
      ih (fun x hx => h x (List.mem_cons_of_mem a hx))]
    rfl

theorem sanitizeChars_eq_sanitizeSpec (l : List Char) :
    sanitizeChars l = sanitizeSpec l := by
  suffices h : ∀ n (l : List Char), l.length ≤ n → sanitizeChars l = sanitizeSpec l from
    h l.length l le_rfl
  intro n
  induction n with
  | zero =>
    intro l hl
    cases l with
    | nil => rw [sanitizeChars_nil, sanitizeSpec, specRuns_nil]; rfl
    | cons c cs => simp at hl
  | succ n ih =>
    intro l hl
    cases l with
    | nil => rw [sanitizeChars_nil, sanitizeSpec, specRuns_nil]; rfl
    | cons c cs =>
      have hcs : cs.length ≤ n := by simp only [List.length_cons] at hl; omega
      by_cases hc : alnum c = true
      · have hpred : (fun x => alnum x == alnum c) = fun x => alnum x := by
          funext x; rw [hc]; cases alnum x <;> rfl
        have hdrop : ((cs.dropWhile fun x => alnum x).length) ≤ n := by
          have := (List.dropWhile_sublist (l := cs) (fun x => alnum x)).length_le
          omega
        have htake : ∀ x ∈ cs.takeWhile (fun x => alnum x), alnum x = true :=
          fun x hx => List.mem_takeWhile_imp hx
        calc sanitizeChars (c :: cs)
            = c :: sanitizeChars cs := by rw [sanitizeChars_cons_alnum _ hc]
          _ = c :: sanitizeChars
                ((cs.takeWhile fun x => alnum x) ++ (cs.dropWhile fun x => alnum x)) := by
              rw [List.takeWhile_append_dropWhile]
          _ = c :: ((cs.takeWhile fun x => alnum x)
                ++ sanitizeChars (cs.dropWhile fun x => alnum x)) := by
              rw [sanitizeChars_append_alnum _ _ htake]
          _ = c :: ((cs.takeWhile fun x => alnum x)
                ++ sanitizeSpec (cs.dropWhile fun x => alnum x)) := by
              rw [ih _ hdrop]
          _ = sanitizeSpec (c :: cs) := by
              conv_rhs => rw [sanitizeSpec, specRuns_cons, hpred]
              simp only [List.flatMap_cons]
              rw [if_pos hc]
              rfl
      · have hc' : alnum c = false := by revert hc; cases alnum c <;> simp
        have hpred : (fun x => alnum x == alnum c) = fun x => !alnum x := by
          funext x; rw [hc']; cases alnum x <;> rfl
        have hdrop : ((cs.dropWhile fun x => !alnum x).length) ≤ n := by
          have := (List.dropWhile_sublist (l := cs) (fun x => !alnum x)).length_le
          omega
        calc sanitizeChars (c :: cs)
            = '_' :: sanitizeChars (cs.dropWhile fun x => !alnum x) := by
              rw [sanitizeChars_cons_not_alnum _ hc']
          _ = '_' :: sanitizeSpec (cs.dropWhile fun x => !alnum x) := by
              rw [ih _ hdrop]
          _ = sanitizeSpec (c :: cs) := by
              conv_rhs => rw [sanitizeSpec, specRuns_cons, hpred]
              simp only [List.flatMap_cons]
              rw [if_neg hc]
              rfl

/-! Lemmas about the deletion loop and the parent lookup. -/

theorem deleteFirst_eq_none (docs : List Doc) (p user ts : String)
    (h : ∀ d ∈ docs, d.permalink ≠ p) : deleteFirst docs p user ts = none := by
  induction docs with
  | nil => rfl
  | cons d rest ih =>
    rw [deleteFirst, if_neg (h d (List.mem_cons_self d rest)),
      ih (fun e he => h e (List.mem_cons_of_mem d he))]

theorem deleteFirst_spec (docs : List Doc) (p user ts : String) (d : Doc)
    (h : lookupPermalink docs p = some d) :
    ∃ l1 l2, docs = l1 ++ d :: l2 ∧ (∀ e ∈ l1, e.permalink ≠ p) ∧ d.permalink = p
      ∧ deleteFirst docs p user ts = some (l1 ++ maskDoc d user ts :: l2) := by
  induction docs with
  | nil => simp [lookupPermalink] at h
  | cons e rest ih =>
    by_cases he : e.permalink = p
    · have hed : e = d := by
        have hh := h
        rw [lookupPermalink, List.find?_cons_of_pos _ (by simpa using he)] at hh
        exact Option.some.inj hh
      subst hed
      exact ⟨[], rest, rfl, by simp, he, by rw [deleteFirst, if_pos he]; rfl⟩
    · have hrest : lookupPermalink rest p = some d := by
        have := h
        rwa [lookupPermalink, List.find?_cons_of_neg _ (by simpa using he)] at this
      obtain ⟨l1, l2, hdocs, hmiss, hdp, hdel⟩ := ih hrest
      refine ⟨e :: l1, l2, by rw [hdocs]; rfl, ?_, hdp, ?_⟩
      · intro x hx
        rcases List.mem_cons.mp hx with hx | hx
        · subst hx; exact he
        · exact hmiss x hx
      · rw [deleteFirst, if_neg he, hdel]
        rfl

/-- C1: every valid post command appends exactly one Post document to its
blog, and that document's permalink is the blog name, then a dot, then
the title with every maximal run of characters outside `[0-9a-zA-Z]`
replaced by a single underscore (the spec-side sanitizer `sanitizeSpec`). -/
theorem post_permalink_sanitized (s : Store) (b u ti bo tg ts : String) :
    getBlog (step s (Cmd.post b u ti bo tg ts)).1 b
      = getBlog s b ++ [makePost b u ti bo tg ts]
    ∧ (makePost b u ti bo tg ts).permalink
      = b ++ "." ++ String.mk (sanitizeSpec ti.toList) := by
  refine ⟨getBlog_setBlog_self s b _, ?_⟩
  simp [makePost, sanitize, sanitizeChars_eq_sanitizeSpec]

theorem step_comment_unresolved (s : Store) (b p u bo ts : String)
    (h : ∀ d ∈ getBlog s b, d.permalink ≠ p) :
    step s (Cmd.comment b p u bo ts) = (s, [], [errNoPermalink p]) := by
  have hl : lookupPermalink (getBlog s b) p = none := by
    rw [lookupPermalink, List.find?_eq_none]
    intro d hd
    simpa using h d hd
  simp [step, hl]

/-- C3: a comment command whose target permalink matches no document of
the named blog leaves the store completely unchanged and reports exactly
one diagnostic line. -/
theorem comment_missing_parent_rejected (s : Store) (b p u bo ts : String)
    (h : ∀ d ∈ getBlog s b, d.permalink ≠ p) :
    step s (Cmd.comment b p u bo ts) = (s, [], [errNoPermalink p]) :=
  step_comment_unresolved s b p u bo ts h

/-- Witness for `comment_missing_parent_rejected` on a store that holds
a post under a different permalink. -/
theorem comment_missing_parent_rejected_witness :
    step [("b", [makePost "b" "u" "T" "x" "" "100"])] (Cmd.comment "b" "nope" "v" "hi" "101")
      = ([("b", [makePost "b" "u" "T" "x" "" "100"])], [], [errNoPermalink "nope"]) :=
  comment_missing_parent_rejected _ "b" "nope" "v" "hi" "101" (by decide)

/-- C10: permalink resolution is scoped to the blog named in the command.
A comment or a delete whose target permalink exists only under a
different blog is rejected with one diagnostic and performs no mutation. -/
theorem crossblog_permalink_rejected (s : Store) (b b' p u bo ts u' ts' : String)
    (hne : b' ≠ b)
    (hb : ∀ d ∈ getBlog s b, d.permalink ≠ p)
    (hex : ∃ d ∈ getBlog s b', d.permalink = p) :
    step s (Cmd.comment b p u bo ts) = (s, [], [errNoPermalink p])
    ∧ step s (Cmd.delete b p u' ts') = (s, [], [errNoPermalink p]) := by
  refine ⟨step_comment_unresolved s b p u bo ts hb, ?_⟩
  simp [step, deleteFirst_eq_none (getBlog s b) p u' ts' hb]

/-- Witness for `crossblog_permalink_rejected`: the permalink of the post
stored under blog `a` is not reachable from commands naming blog `b`. -/
theorem crossblog_permalink_rejected_witness :
    step [("a", [makePost "a" "u" "T" "x" "" "100"])] (Cmd.comment "b" "a.T" "v" "hi" "101")
      = ([("a", [makePost "a" "u" "T" "x" "" "100"])], [], [errNoPermalink "a.T"])
    ∧ step [("a", [makePost "a" "u" "T" "x" "" "100"])] (Cmd.delete "b" "a.T" "w" "102")
      = ([("a", [makePost "a" "u" "T" "x" "" "100"])], [], [errNoPermalink "a.T"]) :=
  crossblog_permalink_rejected _ "b" "a" "a.T" "v" "hi" "101" "w" "102"
    (by decide) (by decide) (by decide)

/-- C4: a delete on a resolvable permalink rewrites exactly the first
matching document of the blog: its body becomes the kind-specific
deletion marker, its deletion stamps are set from the command, every
other field of it is unchanged, and every other document — before it,
after it, and in every other blog — is untouched. -/
theorem delete_masks_only_target (s : Store) (b p u ts : String) (d : Doc)
    (hfound : lookupPermalink (getBlog s b) p = some d) :
    ∃ l1 l2,
      getBlog s b = l1 ++ d :: l2
      ∧ (∀ e ∈ l1, e.permalink ≠ p)
      ∧ d.permalink = p
      ∧ getBlog (step s (Cmd.delete b p u ts)).1 b = l1 ++ maskDoc d u ts :: l2
      ∧ (∀ b'', b'' ≠ b → getBlog (step s (Cmd.delete b p u ts)).1 b'' = getBlog s b'')
      ∧ (step s (Cmd.delete b p u ts)).2 = ([], [])
      ∧ (maskDoc d u ts).type = d.type
      ∧ (maskDoc d u ts).blogname = d.blogname
      ∧ (maskDoc d u ts).userName = d.userName
      ∧ (maskDoc d u ts).title = d.title
      ∧ (maskDoc d u ts).permalink = d.permalink
      ∧ (maskDoc d u ts).timestamp = d.timestamp
      ∧ (maskDoc d u ts).tags = d.tags
      ∧ (maskDoc d u ts).parent_permalink = d.parent_permalink
      ∧ (maskDoc d u ts).deleted_by = some u
      ∧ (maskDoc d u ts).deleted_at = some ts
      ∧ (d.type = "post" → (maskDoc d u ts).body = "**post deleted**")
      ∧ (d.type = "comment" → (maskDoc d u ts).body = "**comment deleted**") := by
  obtain ⟨l1, l2, hdocs, hmiss, hdp, hdel⟩ := deleteFirst_spec (getBlog s b) p u ts d hfound
  have hstep : (step s (Cmd.delete b p u ts)).1 = setBlog s b (l1 ++ maskDoc d u ts :: l2) := by
    simp [step, hdel]
  refine ⟨l1, l2, hdocs, hmiss, hdp, ?_, ?_, ?_, rfl, rfl, rfl, rfl, rfl, rfl, rfl, rfl,
    rfl, rfl, ?_, ?_⟩
  · rw [hstep, getBlog_setBlog_self]
  · intro b'' hb''
    rw [hstep, getBlog_setBlog_ne s b b'' _ hb'']
  · simp [step, hdel]
  · intro h; simp [maskDoc, h]
  · intro h; simp [maskDoc, h]

/-- Witness for `delete_masks_only_target` on a concrete two-document
store. -/
theorem delete_masks_only_target_witness :
    ∃ l1 l2,
      getBlog (execCmds [] [Cmd.post "b" "u" "T" "x" "" "100",
          Cmd.comment "b" "b.T" "v" "hi" "101"]) "b" = l1 ++ makeComment "b" "b.T" "v" "hi" "101" :: l2
      ∧ (∀ e ∈ l1, e.permalink ≠ "101")
      ∧ (makeComment "b" "b.T" "v" "hi" "101").permalink = "101"
      ∧ getBlog (step (execCmds [] [Cmd.post "b" "u" "T" "x" "" "100",
            Cmd.comment "b" "b.T" "v" "hi" "101"]) (Cmd.delete "b" "101" "w" "102")).1 "b"
          = l1 ++ maskDoc (makeComment "b" "b.T" "v" "hi" "101") "w" "102" :: l2
      ∧ (∀ b'', b'' ≠ "b" → getBlog (step (execCmds [] [Cmd.post "b" "u" "T" "x" "" "100",
            Cmd.comment "b" "b.T" "v" "hi" "101"]) (Cmd.delete "b" "101" "w" "102")).1 b''
          = getBlog (execCmds [] [Cmd.post "b" "u" "T" "x" "" "100",
              Cmd.comment "b" "b.T" "v" "hi" "101"]) b'')
      ∧ (step (execCmds [] [Cmd.post "b" "u" "T" "x" "" "100",
            Cmd.comment "b" "b.T" "v" "hi" "101"]) (Cmd.delete "b" "101" "w" "102")).2 = ([], [])
      ∧ (maskDoc (makeComment "b" "b.T" "v" "hi" "101") "w" "102").type
          = (makeComment "b" "b.T" "v" "hi" "101").type
      ∧ (maskDoc (makeComment "b" "b.T" "v" "hi" "101") "w" "102").blogname
          = (makeComment "b" "b.T" "v" "hi" "101").blogname
      ∧ (maskDoc (makeComment "b" "b.T" "v" "hi" "101") "w" "102").userName
          = (makeComment "b" "b.T" "v" "hi" "101").userName
      ∧ (maskDoc (makeComment "b" "b.T" "v" "hi" "101") "w" "102").title
          = (makeComment "b" "b.T" "v" "hi" "101").title
      ∧ (maskDoc (makeComment "b" "b.T" "v" "hi" "101") "w" "102").permalink
          = (makeComment "b" "b.T" "v" "hi" "101").permalink
      ∧ (maskDoc (makeComment "b" "b.T" "v" "hi" "101") "w" "102").timestamp
          = (makeComment "b" "b.T" "v" "hi" "101").timestamp
      ∧ (maskDoc (makeComment "b" "b.T" "v" "hi" "101") "w" "102").tags
          = (makeComment "b" "b.T" "v" "hi" "101").tags
      ∧ (maskDoc (makeComment "b" "b.T" "v" "hi" "101") "w" "102").parent_permalink
          = (makeComment "b" "b.T" "v" "hi" "101").parent_permalink
      ∧ (maskDoc (makeComment "b" "b.T" "v" "hi" "101") "w" "102").deleted_by = some "w"
      ∧ (maskDoc (makeComment "b" "b.T" "v" "hi" "101") "w" "102").deleted_at = some "102"
      ∧ ((makeComment "b" "b.T" "v" "hi" "101").type = "post" →
          (maskDoc (makeComment "b" "b.T" "v" "hi" "101") "w" "102").body = "**post deleted**")
      ∧ ((makeComment "b" "b.T" "v" "hi" "101").type = "comment" →
          (maskDoc (makeComment "b" "b.T" "v" "hi" "101") "w" "102").body = "**comment deleted**") :=
  delete_masks_only_target _ "b" "101" "w" "102" (makeComment "b" "b.T" "v" "hi" "101") (by decide)

/-! Order lemmas for the timestamp comparison and the stable sort. -/

theorem leChars_refl (a : List Char) : leChars a a = true := by
  induction a with
  | nil => rfl
  | cons c cs ih => rw [leChars, if_pos rfl]; exact ih

theorem leChars_total (a b : List Char) : leChars a b = true ∨ leChars b a = true := by
  induction a generalizing b with
  | nil => left; rfl
  | cons x xs ih =>
    cases b with
    | nil => right; rfl
    | cons y ys =>
      by_cases hxy : x = y
      · subst hxy
        rw [leChars, if_pos rfl, leChars, if_pos rfl]
        exact ih ys
      · rw [leChars, if_neg hxy, leChars, if_neg (Ne.symm hxy)]
        rcases lt_trichotomy x y with h | h | h
        · left; simpa using h
        · exact absurd h hxy
        · right; simpa using h

theorem leChars_trans (a b c : List Char)
    (hab : leChars a b = true) (hbc : leChars b c = true) : leChars a c = true := by
  induction a generalizing b c with
  | nil => rfl
  | cons x xs ih =>
    cases b with
    | nil => rw [leChars] at hab; exact absurd hab (by simp)
    | cons y ys =>
      cases c with
      | nil => rw [leChars] at hbc; exact absurd hbc (by simp)
      | cons z zs =>
        rw [leChars] at hab hbc ⊢
        by_cases hxy : x = y
        · subst hxy
          rw [if_pos rfl] at hab
          by_cases hyz : x = z
          · subst hyz
            rw [if_pos rfl] at hbc
            rw [if_pos rfl]
            exact ih ys zs hab hbc
          · rw [if_neg hyz] at hbc
            rw [if_neg hyz]
            exact hbc
        · rw [if_neg hxy] at hab
          have hxy' : x < y := by simpa using hab
          by_cases hyz : y = z
          · subst hyz
            rw [if_neg hxy]
            simpa using hxy'
          · rw [if_neg hyz] at hbc
            have hyz' : y < z := by simpa using hbc
            have hxz : x < z := lt_trans hxy' hyz'
            rw [if_neg (ne_of_lt hxz)]
            simpa using hxz

theorem postsLe_total (a b : Doc) : postsLe a b = true ∨ postsLe b a = true :=
  leChars_total b.timestamp.toList a.timestamp.toList

theorem postsLe_trans (a b c : Doc)
    (h1 : postsLe a b = true) (h2 : postsLe b c = true) : postsLe a c = true :=
  leChars_trans _ _ _ h2 h1

theorem commentsLe_total (a b : Doc) : commentsLe a b = true ∨ commentsLe b a = true :=
  leChars_total a.timestamp.toList b.timestamp.toList

theorem commentsLe_trans (a b c : Doc)
    (h1 : commentsLe a b = true) (h2 : commentsLe b c = true) : commentsLe a c = true :=
  leChars_trans _ _ _ h1 h2

theorem mem_orderedInsert (le : Doc → Doc → Bool) (a x : Doc) (l : List Doc) :
    x ∈ orderedInsert le a l ↔ x = a ∨ x ∈ l := by
  induction l with
  | nil => simp [orderedInsert]
  | cons b l ih =>
    rw [orderedInsert]
    by_cases hab : le a b = true
    · rw [if_pos hab]; simp
    · rw [if_neg hab]
      simp only [List.mem_cons, ih]
      tauto

theorem orderedInsert_perm (le : Doc → Doc → Bool) (a : Doc) (l : List Doc) :
    (orderedInsert le a l).Perm (a :: l) := by
  induction l with
  | nil => exact List.Perm.refl _
  | cons b l ih =>
    rw [orderedInsert]
    by_cases hab : le a b = true
    · rw [if_pos hab]
    · rw [if_neg hab]
      exact (List.Perm.cons b ih).trans (List.Perm.swap a b l)

theorem sortDocs_perm (le : Doc → Doc → Bool) (l : List Doc) :
    (sortDocs le l).Perm l := by
  induction l with
  | nil => exact List.Perm.refl _
  | cons a l ih =>
    rw [sortDocs]
    exact (orderedInsert_perm le a (sortDocs le l)).trans (List.Perm.cons a ih)

theorem sorted_orderedInsert (le : Doc → Doc → Bool)
    (htrans : ∀ x y z, le x y = true → le y z = true → le x z = true)
    (htotal : ∀ x y, le x y = true ∨ le y x = true)
    (a : Doc) (l : List Doc) (hl : l.Pairwise (fun x y => le x y = true)) :
    (orderedInsert le a l).Pairwise (fun x y => le x y = true) := by
  induction l with
  | nil => simp [orderedInsert]
  | cons b l ih =>
    rw [List.pairwise_cons] at hl
    obtain ⟨hb, hl⟩ := hl
    rw [orderedInsert]
    by_cases hab : le a b = true
    · rw [if_pos hab]
      refine List.Pairwise.cons ?_ (List.Pairwise.cons hb hl)
      intro x hx
      rcases List.mem_cons.mp hx with rfl | hx
      · exact hab
      · exact htrans a b x hab (hb x hx)
    · rw [if_neg hab]
      refine List.Pairwise.cons ?_ (ih hl)
      intro x hx
      rcases (mem_orderedInsert le a x l).mp hx with rfl | hx
      · rcases htotal x b with h | h
        · exact absurd h hab
        · exact h
      · exact hb x hx

theorem sorted_sortDocs (le : Doc → Doc → Bool)
    (htrans : ∀ x y z, le x y = true → le y z = true → le x z = true)
    (htotal : ∀ x y, le x y = true ∨ le y x = true)
    (l : List Doc) : (sortDocs le l).Pairwise (fun x y => le x y = true) := by
  induction l with
  | nil => exact List.Pairwise.nil
  | cons a l ih => exact sorted_orderedInsert le htrans htotal a _ ih

theorem filter_orderedInsert (le : Doc → Doc → Bool) (p : Doc → Bool) (a : Doc)
    (l : List Doc) (h : ∀ b ∈ l, p b = true → p a = true → le a b = true) :
    (orderedInsert le a l).filter p
      = if p a then a :: l.filter p else l.filter p := by
  induction l with
  | nil => cases hpa : p a <;> simp [orderedInsert, List.filter_cons, hpa]
  | cons b l ih =>
    rw [orderedInsert]
    by_cases hab : le a b = true
    · rw [if_pos hab]
      cases hpa : p a <;> simp [List.filter_cons, hpa]
    · rw [if_neg hab]
      have ih' := ih (fun x hx => h x (List.mem_cons_of_mem b hx))
      rw [List.filter_cons, ih']
      cases hpa : p a with
      | false => simp [List.filter_cons, hpa]
      | true =>
        cases hpb : p b with
        | false => simp [List.filter_cons, hpa, hpb]
        | true =>
          exact absurd (h b (List.mem_cons_self b l) hpb hpa) hab

/-- Stability of the sort: the elements satisfying a predicate on which
the comparison always answers `true` (mutually tied elements, for the
timestamp-equality predicates used below) come out in their input
order. -/
theorem filter_sortDocs (le : Doc → Doc → Bool) (p : Doc → Bool) (l : List Doc)
    (h : ∀ a b, p a = true → p b = true → le a b = true) :
    (sortDocs le l).filter p = l.filter p := by
  induction l with
  | nil => rfl
  | cons a l ih =>
    rw [sortDocs, filter_orderedInsert le p a _ (fun b _ hpb hpa => h a b hpa hpb),
      List.filter_cons]
    cases hpa : p a <;> simp [ih]

/-- C5: the thread assembler orders posts by timestamp descending and the
comments of each parent group by timestamp ascending (lexicographically),
each list a permutation of the corresponding stored documents, and ties
keep insertion order: filtering any fixed timestamp value out of an
assembled list returns those documents in stored order. -/
theorem thread_assembler_ordering (s : Store) (b : String) :
    ((getPostsAndComments b s).1.Pairwise
        (fun a c => leChars c.timestamp.toList a.timestamp.toList = true))
    ∧ (getPostsAndComments b s).1.Perm ((getBlog s b).filter (fun d => d.type == "post"))
    ∧ (∀ t, (getPostsAndComments b s).1.filter (fun d => d.timestamp == t)
        = ((getBlog s b).filter (fun d => d.type == "post")).filter
            (fun d => d.timestamp == t))
    ∧ (∀ p, ((getPostsAndComments b s).2 p).Pairwise
        (fun a c => leChars a.timestamp.toList c.timestamp.toList = true))
    ∧ (∀ p, ((getPostsAndComments b s).2 p).Perm
        (((getBlog s b).filter (fun d => d.type == "comment")).filter
          (fun c => c.parent_permalink == some p)))
    ∧ (∀ p t, ((getPostsAndComments b s).2 p).filter (fun d => d.timestamp == t)
        = (((getBlog s b).filter (fun d => d.type == "comment")).filter
            (fun c => c.parent_permalink == some p)).filter
            (fun d => d.timestamp == t)) := by
  have hpostTie : ∀ (t : String) (a c : Doc), (a.timestamp == t) = true →
      (c.timestamp == t) = true → postsLe a c = true := by
    intro t a c ha hc
    have ha' : a.timestamp = t := by simpa using ha
    have hc' : c.timestamp = t := by simpa using hc
    rw [postsLe, ha', hc']
    exact leChars_refl _
  have hcommentTie : ∀ (pr : Doc → Bool) (t : String) (a c : Doc),
      ((a.timestamp == t) && pr a) = true → ((c.timestamp == t) && pr c) = true →
      commentsLe a c = true := by
    intro pr t a c ha hc
    have ha' : a.timestamp = t := by
      have := (Bool.and_eq_true _ _).mp ha
      simpa using this.1
    have hc' : c.timestamp = t := by
      have := (Bool.and_eq_true _ _).mp hc
      simpa using this.1
    rw [commentsLe, ha', hc']
    exact leChars_refl _
  refine ⟨?_, ?_, ?_, ?_, ?_, ?_⟩
  · exact sorted_sortDocs postsLe postsLe_trans postsLe_total _
  · exact sortDocs_perm postsLe _
  · intro t
    exact filter_sortDocs postsLe _ _ (hpostTie t)
  · intro p
    exact List.Pairwise.sublist (List.filter_sublist _)
      (sorted_sortDocs commentsLe commentsLe_trans commentsLe_total _)
  · intro p
    exact List.Perm.filter _ (sortDocs_perm commentsLe _)
  · intro p t
    show (List.filter _ (List.filter _ (sortDocs commentsLe _))) = _
    rw [List.filter_filter, List.filter_filter,
      filter_sortDocs commentsLe _ _ (hcommentTie (fun c => c.parent_permalink == some p) t)]

/-- C9: a `show` command leaves the store untouched, so two consecutive
`show` commands of the same blog with no mutation in between see the same
store and print identical output. -/
theorem show_idempotent (s : Store) (b : String) :
    (step s (Cmd.showCmd b)).1 = s
    ∧ (step (step s (Cmd.showCmd b)).1 (Cmd.showCmd b)).2.1
        = (step s (Cmd.showCmd b)).2.1
    ∧ (step (step s (Cmd.showCmd b)).1 (Cmd.showCmd b)).1 = s :=
  ⟨rfl, rfl, rfl⟩

/-! Helper lemmas for the `find` renderer and the comment tree. -/

theorem findPostBlock_eq_nil (q : String) (cbp : String → List Doc) (post : Doc)
    (hbody : strIn q post.body = false)
    (htags : ∀ tag ∈ post.tags.getD [], strIn q tag = false) :
    findPostBlock q cbp post = [] := by
  rw [findPostBlock]
  have hfound : (strIn q post.body ||
      (match post.tags with
       | some ts => ts.any (fun tag => strIn q tag)
       | none => false)) = false := by
    rw [hbody, Bool.false_or]
    cases htg : post.tags with
    | none => rfl
    | some ts =>
      simp only [List.any_eq_false]
      intro tag htag
      have := htags tag (by rw [htg]; exact htag)
      simp [this]
  simp only [hfound]
  rfl

theorem mem_findPostBlock (q : String) (cbp : String → List Doc) (post c : Doc)
    (hfound : (strIn q post.body ||
      (match post.tags with
       | some ts => ts.any (fun tag => strIn q tag)
       | none => false)) = true)
    (hc : c ∈ cbp post.permalink) (hcb : strIn q c.body = true) :
    ("\tpermalink: " ++ c.permalink) ∈ findPostBlock q cbp post := by
  rw [findPostBlock]
  simp only [hfound, if_true]
  refine List.mem_append_left _ (List.mem_append_right _ ?_)
  rw [List.mem_flatMap]
  refine ⟨c, List.mem_filter.mpr ⟨hc, hcb⟩, ?_⟩
  simp [commentBlockFind]

theorem mem_printCommentsFuel (fuel : Nat) (p : String) (cbp : String → List Doc)
    (ind : Nat) (c : Doc) (hc : c ∈ cbp p) :
    (indentStr ind ++ "\tpermalink: " ++ c.permalink)
      ∈ printCommentsFuel (fuel + 1) p cbp ind := by
  rw [printCommentsFuel, List.mem_flatMap]
  refine ⟨c, hc, List.mem_append_left _ ?_⟩
  simp [commentBlock, String.append_assoc]

theorem comment_insert_spec (s : Store) (b p u bo t : String) (d : Doc)
    (hfound : lookupPermalink (getBlog s b) p = some d) :
    getBlog (step s (Cmd.comment b p u bo t)).1 b
      = getBlog s b ++ [makeComment b p u bo t]
    ∧ makeComment b p u bo t
        ∈ (getPostsAndComments b (step s (Cmd.comment b p u bo t)).1).2 p := by
  have hstep : (step s (Cmd.comment b p u bo t)).1
      = setBlog s b (getBlog s b ++ [makeComment b p u bo t]) := by
    simp [step, hfound]
  have hget : getBlog (step s (Cmd.comment b p u bo t)).1 b
      = getBlog s b ++ [makeComment b p u bo t] := by
    rw [hstep, getBlog_setBlog_self]
  refine ⟨hget, ?_⟩
  show makeComment b p u bo t ∈ List.filter _ (sortDocs commentsLe (List.filter _ _))
  refine List.mem_filter.mpr ⟨?_, by simp [makeComment]⟩
  rw [(sortDocs_perm commentsLe _).mem_iff]
  refine List.mem_filter.mpr ⟨?_, by simp [makeComment]⟩
  rw [hget]
  exact List.mem_append_right _ (List.mem_cons_self _ _)

/-- C6: `find` never renders a post whose body, tags, and all of whose
comments' bodies lack the search term: such a post's loop iteration
contributes no output lines, and the whole `find` output is the output
with that iteration dropped. -/
theorem find_never_renders_unmatched_post (s : Store) (b q : String) (post : Doc)
    (l1 l2 : List Doc)
    (hsplit : (getPostsAndComments b s).1 = l1 ++ post :: l2)
    (hbody : strIn q post.body = false)
    (htags : ∀ tag ∈ post.tags.getD [], strIn q tag = false)
    (hcomments : ∀ c ∈ (getPostsAndComments b s).2 post.permalink,
      strIn q c.body = false) :
    findPostBlock q (getPostsAndComments b s).2 post = []
    ∧ processFind b q s = ["in " ++ b ++ ":", ""]
        ++ (if blogExists s b then
              l1.flatMap (findPostBlock q (getPostsAndComments b s).2)
              ++ l2.flatMap (findPostBlock q (getPostsAndComments b s).2)
            else []) := by
  have hnil := findPostBlock_eq_nil q (getPostsAndComments b s).2 post hbody htags
  refine ⟨hnil, ?_⟩
  rw [processFind]
  by_cases hbe : blogExists s b = true
  · rw [if_pos hbe, if_pos hbe, hsplit, List.flatMap_append, List.flatMap_cons, hnil,
      List.nil_append]
  · rw [if_neg hbe, if_neg hbe]

/-- Witness for `find_never_renders_unmatched_post`: a blog whose one
post (body `hello`, no tags) has a comment, searched for a term absent
everywhere. -/
theorem find_never_renders_unmatched_post_witness :
    findPostBlock "zzz" (getPostsAndComments "b" (execCmds []
        [Cmd.post "b" "u" "T" "hello" "" "100",
         Cmd.comment "b" "b.T" "v" "world" "101"])).2 (makePost "b" "u" "T" "hello" "" "100") = []
    ∧ processFind "b" "zzz" (execCmds [] [Cmd.post "b" "u" "T" "hello" "" "100",
        Cmd.comment "b" "b.T" "v" "world" "101"])
      = ["in " ++ "b" ++ ":", ""]
        ++ (if blogExists (execCmds [] [Cmd.post "b" "u" "T" "hello" "" "100",
              Cmd.comment "b" "b.T" "v" "world" "101"]) "b" then
              List.flatMap ([] : List Doc) (findPostBlock "zzz" (getPostsAndComments "b"
                (execCmds [] [Cmd.post "b" "u" "T" "hello" "" "100",
                  Cmd.comment "b" "b.T" "v" "world" "101"])).2)
              ++ List.flatMap ([] : List Doc) (findPostBlock "zzz" (getPostsAndComments "b"
                (execCmds [] [Cmd.post "b" "u" "T" "hello" "" "100",
                  Cmd.comment "b" "b.T" "v" "world" "101"])).2)
            else []) :=
  find_never_renders_unmatched_post (execCmds [] [Cmd.post "b" "u" "T" "hello" "" "100",
      Cmd.comment "b" "b.T" "v" "world" "101"]) "b" "zzz"
    (makePost "b" "u" "T" "hello" "" "100") [] []
    (by decide) (by decide) (by decide) (by decide)

/-- C7 fails on the in-memory backend: a comment whose body contains the
search term while its post matches nowhere is not rendered at all — the
`find` output is the bare header, with no standalone comment entry. -/
theorem find_standalone_comment_counterexample :
    strIn "Nice" "Nice to see" = true
    ∧ strIn "Nice" "hello" = false
    ∧ (makeComment "b" "b.T" "v" "Nice to see" "101")
        ∈ (getPostsAndComments "b" (execCmds [] [Cmd.post "b" "u" "T" "hello" "" "100",
            Cmd.comment "b" "b.T" "v" "Nice to see" "101"])).2 "b.T"
    ∧ processFind "b" "Nice" (execCmds [] [Cmd.post "b" "u" "T" "hello" "" "100",
        Cmd.comment "b" "b.T" "v" "Nice to see" "101"]) = ["in b:", ""] := by
  decide

/-- C7 amended: in the in-memory backend a matching comment is rendered
only nested under a post that itself matches; if the post matches
nowhere, its loop iteration prints nothing — matching comments included —
and no standalone comment entry exists. -/
theorem find_comment_visibility (q : String) (cbp : String → List Doc) (post c : Doc)
    (hc : c ∈ cbp post.permalink) (hcb : strIn q c.body = true) :
    ((strIn q post.body = false ∧ ∀ tag ∈ post.tags.getD [], strIn q tag = false) →
      findPostBlock q cbp post = [])
    ∧ ((strIn q post.body ||
          (match post.tags with
           | some ts => ts.any (fun tag => strIn q tag)
           | none => false)) = true →
        ("\tpermalink: " ++ c.permalink) ∈ findPostBlock q cbp post) :=
  ⟨fun h => findPostBlock_eq_nil q cbp post h.1 h.2,
   fun hfound => mem_findPostBlock q cbp post c hfound hc hcb⟩

/-- Witness for `find_comment_visibility`: under term `hello` the post
matches and its matching comment is rendered nested; the non-matching
branch is vacuous at this term. -/
theorem find_comment_visibility_witness :
    ((strIn "lo" (makePost "b" "u" "T" "hello" "" "100").body = false
        ∧ ∀ tag ∈ (makePost "b" "u" "T" "hello" "" "100").tags.getD [],
            strIn "lo" tag = false) →
      findPostBlock "lo" (getPostsAndComments "b" (execCmds []
        [Cmd.post "b" "u" "T" "hello" "" "100",
         Cmd.comment "b" "b.T" "v" "hello back" "101"])).2
        (makePost "b" "u" "T" "hello" "" "100") = [])
    ∧ ((strIn "lo" (makePost "b" "u" "T" "hello" "" "100").body ||
          (match (makePost "b" "u" "T" "hello" "" "100").tags with
           | some ts => ts.any (fun tag => strIn "lo" tag)
           | none => false)) = true →
        ("\tpermalink: " ++ (makeComment "b" "b.T" "v" "hello back" "101").permalink)
          ∈ findPostBlock "lo" (getPostsAndComments "b" (execCmds []
              [Cmd.post "b" "u" "T" "hello" "" "100",
               Cmd.comment "b" "b.T" "v" "hello back" "101"])).2
              (makePost "b" "u" "T" "hello" "" "100")) :=
  find_comment_visibility "lo" (getPostsAndComments "b" (execCmds []
      [Cmd.post "b" "u" "T" "hello" "" "100",
       Cmd.comment "b" "b.T" "v" "hello back" "101"])).2
    (makePost "b" "u" "T" "hello" "" "100") (makeComment "b" "b.T" "v" "hello back" "101")
    (by decide) (by decide)

/-! Termination analysis of the recursive comment renderer. -/

/-- Rendering from an empty child list prints nothing at any fuel. -/
theorem printCommentsFuel_nil (p : String) (cbp : String → List Doc)
    (h : cbp p = []) (f i : Nat) : printCommentsFuel f p cbp i = [] := by
  cases f with
  | zero => rfl
  | succ f => rw [printCommentsFuel, h]; rfl

/-- The identity-relevant projection of a document: permalink, kind and
parent reference — exactly the fields `delete` never changes. -/
def docKey (d : Doc) : String × String × Option String :=
  (d.permalink, d.type, d.parent_permalink)

/-- Every comment key refers to a permalink occurring strictly earlier;
`seen` accumulates the already-scanned prefix. -/
def parentsEarlierK : List (String × String × Option String) →
    List (String × String × Option String) → Prop
  | _, [] => True
  | seen, k :: rest =>
    (k.2.1 = "comment" → ∃ q, k.2.2 = some q ∧ ∃ e ∈ seen, e.1 = q)
    ∧ parentsEarlierK (seen ++ [k]) rest

/-- Well-formed blog list: pairwise distinct permalinks, and every
comment preceded by the document its parent reference names. -/
def wfDocs (docs : List Doc) : Prop :=
  (docs.map docKey).Pairwise (fun a b => a.1 ≠ b.1)
  ∧ parentsEarlierK [] (docs.map docKey)

/-- Position of the first key with a given permalink (list length when
absent). -/
def rankK : List (String × String × Option String) → String → Nat
  | [], _ => 0
  | k :: ks, p => if k.1 = p then 0 else rankK ks p + 1

theorem rankK_first (l1 : List (String × String × Option String))
    (k : String × String × Option String) (l2 : List (String × String × Option String))
    (p : String) (h : ∀ e ∈ l1, e.1 ≠ p) (hk : k.1 = p) :
    rankK (l1 ++ k :: l2) p = l1.length := by
  induction l1 with
  | nil => simp [rankK, hk]
  | cons a l1 ih =>
    rw [List.cons_append, rankK, if_neg (h a (List.mem_cons_self a l1)),
      ih (fun e he => h e (List.mem_cons_of_mem a he))]
    rfl

theorem rankK_lt_of_mem_prefix (l1 l2 : List (String × String × Option String))
    (p : String) (h : ∃ e ∈ l1, e.1 = p) :
    rankK (l1 ++ l2) p < l1.length := by
  induction l1 with
  | nil => obtain ⟨e, he, _⟩ := h; exact absurd he (List.not_mem_nil e)
  | cons a l1 ih =>
    rw [List.cons_append, rankK]
    by_cases ha : a.1 = p
    · rw [if_pos ha]; simp
    · rw [if_neg ha, List.length_cons]
      have h' : ∃ e ∈ l1, e.1 = p := by
        obtain ⟨e, he, hep⟩ := h
        rcases List.mem_cons.mp he with rfl | he
        · exact absurd hep ha
        · exact ⟨e, he, hep⟩
      exact Nat.succ_lt_succ (ih h')

theorem parentsEarlierK_split (l : List (String × String × Option String)) :
    ∀ (seen l1 : List (String × String × Option String)) (k : String × String × Option String)
      (l2 : List (String × String × Option String)),
      parentsEarlierK seen l → l = l1 ++ k :: l2 → k.2.1 = "comment" →
      ∃ q, k.2.2 = some q ∧ ∃ e ∈ seen ++ l1, e.1 = q := by
  induction l with
  | nil =>
    intro seen l1 k l2 _ heq _
    exact absurd heq (by simp)
  | cons a rest ih =>
    intro seen l1 k l2 hpe heq hk
    cases l1 with
    | nil =>
      simp only [List.nil_append] at heq ⊢
      obtain ⟨rfl, -⟩ := List.cons.inj heq
      obtain ⟨ha, -⟩ := hpe
      simpa using ha hk
    | cons a1 l1 =>
      obtain ⟨ha1, hrest⟩ := List.cons.inj heq
      subst ha1
      obtain ⟨-, hpe'⟩ := hpe
      obtain ⟨q, hq, e, he, hep⟩ := ih (seen ++ [a]) l1 k l2 hpe' hrest hk
      refine ⟨q, hq, e, ?_, hep⟩
      simpa [List.append_assoc] using he

/-- In a well-formed blog list, a comment's own permalink ranks strictly
after its parent's, and within the list length. -/
theorem rank_child_gt (docs : List Doc) (hwf : wfDocs docs) (p : String) (c : Doc)
    (hc : c ∈ docs) (hty : c.type = "comment") (hpar : c.parent_permalink = some p) :
    rankK (docs.map docKey) p < rankK (docs.map docKey) c.permalink
    ∧ rankK (docs.map docKey) c.permalink ≤ docs.length := by
  obtain ⟨hpw, hpe⟩ := hwf
  have hkmem : docKey c ∈ docs.map docKey := List.mem_map_of_mem docKey hc
  obtain ⟨m1, m2, hsplit⟩ := List.append_of_mem hkmem
  have hcross : ∀ e ∈ m1, e.1 ≠ (docKey c).1 := by
    rw [hsplit] at hpw
    have := (List.pairwise_append.mp hpw).2.2
    intro e he
    exact this e he (docKey c) (List.mem_cons_self _ _)
  have hrankc : rankK (docs.map docKey) c.permalink = m1.length := by
    rw [hsplit]
    exact rankK_first m1 (docKey c) m2 c.permalink hcross rfl
  have hq := parentsEarlierK_split (docs.map docKey) [] m1 (docKey c) m2 hpe hsplit hty
  obtain ⟨q, hq2, e, he, hep⟩ := hq
  have hqp : q = p := by
    rw [show (docKey c).2.2 = c.parent_permalink from rfl, hpar] at hq2
    exact (Option.some.inj hq2).symm
  have hrankp : rankK (docs.map docKey) p < m1.length := by
    rw [hsplit]
    exact rankK_lt_of_mem_prefix m1 _ p ⟨e, by simpa using he, hqp ▸ hep⟩
  have hlen : m1.length ≤ docs.length := by
    have := congrArg List.length hsplit
    simp only [List.length_map, List.length_append, List.length_cons] at this
    omega
  omega

/-- Output of the fuelled renderer is independent of the fuel once it
exceeds the distance from the node's rank to the bound, provided every
child ranks strictly higher — the acyclicity measure. -/
theorem printCommentsFuel_stable (cbp : String → List Doc) (rank : String → Nat) (N : Nat)
    (hr : ∀ p c, c ∈ cbp p → rank p < rank c.permalink ∧ rank c.permalink ≤ N) :
    ∀ k p i f g, N - rank p = k → k ≤ f → k ≤ g →
      printCommentsFuel f p cbp i = printCommentsFuel g p cbp i := by
  intro k
  induction k using Nat.strong_induction_on with
  | _ k ih =>
    intro p i f g hk hf hg
    by_cases hk0 : k = 0
    · subst hk0
      have hempty : cbp p = [] := by
        rw [List.eq_nil_iff_forall_not_mem]
        intro c hc
        have := hr p c hc
        omega
      rw [printCommentsFuel_nil p cbp hempty, printCommentsFuel_nil p cbp hempty]
    · obtain ⟨k', rfl⟩ : ∃ k', k = k' + 1 := ⟨k - 1, by omega⟩
      obtain ⟨f', rfl⟩ : ∃ f', f = f' + 1 := ⟨f - 1, by omega⟩
      obtain ⟨g', rfl⟩ : ∃ g', g = g' + 1 := ⟨g - 1, by omega⟩
      rw [printCommentsFuel, printCommentsFuel, List.flatMap_def, List.flatMap_def]
      refine congrArg List.flatten (List.map_congr_left ?_)
      intro c hc
      have hrc := hr p c hc
      have heq : printCommentsFuel f' c.permalink cbp (i + 1)
          = printCommentsFuel g' c.permalink cbp (i + 1) :=
        ih (N - rank c.permalink) (by omega) c.permalink (i + 1) f' g' rfl
          (by omega) (by omega)
      rw [heq]

/-! Preservation of well-formedness along fresh-permalink runs. -/

theorem parentsEarlierK_append (l : List (String × String × Option String)) :
    ∀ (seen : List (String × String × Option String))
      (k : String × String × Option String),
      parentsEarlierK seen l →
      (k.2.1 = "comment" → ∃ q, k.2.2 = some q ∧ ∃ e ∈ seen ++ l, e.1 = q) →
      parentsEarlierK seen (l ++ [k]) := by
  induction l with
  | nil =>
    intro seen k _ hk
    exact ⟨by simpa using hk, trivial⟩
  | cons a rest ih =>
    intro seen k hpe hk
    obtain ⟨ha, hpe'⟩ := hpe
    refine ⟨ha, ih (seen ++ [a]) k hpe' ?_⟩
    intro hc
    obtain ⟨q, hq, e, he, hep⟩ := hk hc
    refine ⟨q, hq, e, ?_, hep⟩
    simpa [List.append_assoc] using he

theorem wfDocs_append (docs : List Doc) (d : Doc) (hwf : wfDocs docs)
    (hfresh : ∀ e ∈ docs, e.permalink ≠ d.permalink)
    (hd : d.type = "comment" → ∃ q, d.parent_permalink = some q ∧ ∃ e ∈ docs, e.permalink = q) :
    wfDocs (docs ++ [d]) := by
  obtain ⟨hpw, hpe⟩ := hwf
  constructor
  · rw [List.map_append]
    rw [List.pairwise_append]
    refine ⟨hpw, by simp, ?_⟩
    intro a ha b hb
    obtain ⟨ea, hea, rfl⟩ := List.mem_map.mp ha
    have hb' : b = docKey d := by simpa using hb
    subst hb'
    exact hfresh ea hea
  · rw [List.map_append]
    refine parentsEarlierK_append (docs.map docKey) [] (docKey d) hpe ?_
    intro hc
    obtain ⟨q, hq, e, he, hep⟩ := hd hc
    exact ⟨q, hq, docKey e, by simpa using List.mem_map_of_mem docKey he, hep⟩

/-- The deletion loop changes no permalink, kind, or parent reference. -/
theorem deleteFirst_map_docKey (docs : List Doc) (p user ts : String)
    (docs' : List Doc) (h : deleteFirst docs p user ts = some docs') :
    docs'.map docKey = docs.map docKey := by
  induction docs generalizing docs' with
  | nil => exact absurd h (by rw [deleteFirst]; simp)
  | cons d rest ih =>
    rw [deleteFirst] at h
    by_cases hd : d.permalink = p
    · rw [if_pos hd] at h
      have hdocs : docs' = maskDoc d user ts :: rest := (Option.some.inj h).symm
      rw [hdocs]
      rfl
    · rw [if_neg hd] at h
      cases hdel : deleteFirst rest p user ts with
      | none => rw [hdel] at h; exact absurd h (by simp)
      | some rest' =>
        rw [hdel] at h
        have : docs' = d :: rest' := (Option.some.inj h).symm
        rw [this, List.map_cons, List.map_cons, ih rest' hdel]

/-- Well-formedness of every blog of a store. -/
def wfStore (s : Store) : Prop := ∀ b, wfDocs (getBlog s b)

/-- The freshness side condition of one command: the permalink an insert
would create is not yet present in its blog (non-inserting commands are
unconstrained). -/
def freshCmd (s : Store) : Cmd → Bool
  | .post b u ti bo tg ts =>
    (getBlog s b).all (fun d => d.permalink != (makePost b u ti bo tg ts).permalink)
  | .comment b _ _ _ ts => (getBlog s b).all (fun d => d.permalink != ts)
  | _ => true

/-- A run in which every insertion uses a fresh permalink. -/
def freshRun (s : Store) : List Cmd → Bool
  | [] => true
  | c :: rest => freshCmd s c && freshRun (step s c).1 rest

theorem step_preserves_wf (s : Store) (c : Cmd) (hwf : wfStore s)
    (hfresh : freshCmd s c = true) : wfStore (step s c).1 := by
  cases c with
  | post b u ti bo tg ts =>
    intro b'
    by_cases hb : b' = b
    · subst hb
      show wfDocs (getBlog (setBlog s b' _) b')
      rw [getBlog_setBlog_self]
      refine wfDocs_append _ _ (hwf b') ?_ ?_
      · intro e he
        have := (List.all_eq_true.mp hfresh) e he
        simpa using this
      · intro hc
        exact absurd hc (by simp [makePost])
    · show wfDocs (getBlog (setBlog s b _) b')
      rw [getBlog_setBlog_ne s b b' _ hb]
      exact hwf b'
  | comment b p u bo ts =>
    cases hl : lookupPermalink (getBlog s b) p with
    | none =>
      intro b'
      show wfDocs (getBlog (step s (Cmd.comment b p u bo ts)).1 b')
      have : (step s (Cmd.comment b p u bo ts)).1 = s := by simp [step, hl]
      rw [this]
      exact hwf b'
    | some parent =>
      have hstep : (step s (Cmd.comment b p u bo ts)).1
          = setBlog s b (getBlog s b ++ [makeComment b p u bo ts]) := by
        simp [step, hl]
      intro b'
      rw [hstep]
      by_cases hb : b' = b
      · subst hb
        rw [getBlog_setBlog_self]
        refine wfDocs_append _ _ (hwf b') ?_ ?_
        · intro e he
          have := (List.all_eq_true.mp hfresh) e he
          simpa [makeComment] using this
        · intro _
          refine ⟨p, rfl, parent, List.mem_of_find?_eq_some hl, ?_⟩
          have := List.find?_some hl
          simpa using this
      · rw [getBlog_setBlog_ne s b b' _ hb]
        exact hwf b'
  | delete b p u ts =>
    cases hd : deleteFirst (getBlog s b) p u ts with
    | none =>
      intro b'
      have : (step s (Cmd.delete b p u ts)).1 = s := by simp [step, hd]
      rw [this]
      exact hwf b'
    | some docs' =>
      have hstep : (step s (Cmd.delete b p u ts)).1 = setBlog s b docs' := by
        simp [step, hd]
      intro b'
      rw [hstep]
      by_cases hb : b' = b
      · subst hb
        rw [getBlog_setBlog_self]
        have hmap := deleteFirst_map_docKey (getBlog s b') p u ts docs' hd
        obtain ⟨hpw, hpe⟩ := hwf b'
        exact ⟨hmap ▸ hpw, hmap ▸ hpe⟩
      · rw [getBlog_setBlog_ne s b b' _ hb]
        exact hwf b'
  | showCmd b => exact hwf
  | findCmd b q => exact hwf

theorem execCmds_preserves_wf (cmds : List Cmd) (s : Store) (hwf : wfStore s)
    (hfresh : freshRun s cmds = true) : wfStore (execCmds s cmds) := by
  induction cmds generalizing s with
  | nil => exact hwf
  | cons c rest ih =>
    rw [freshRun, Bool.and_eq_true] at hfresh
    exact ih (step s c).1 (step_preserves_wf s c hwf hfresh.1) hfresh.2

theorem wfStore_nil : wfStore [] := by
  intro b
  exact ⟨List.Pairwise.nil, trivial⟩

/-- A reachable store with a reply cycle: the comment's timestamp equals
the post's permalink, so the comment is stored under its own key and is
its own child in the parent grouping. -/
def cycleStore : Store :=
  execCmds [] [Cmd.post "b" "u" "T" "x" "" "100", Cmd.comment "b" "b.T" "v" "hi" "b.T"]

theorem cycleStore_cbp :
    (getPostsAndComments "b" cycleStore).2 "b.T"
      = [makeComment "b" "b.T" "v" "hi" "b.T"] := by decide

theorem cycleStore_length (n i : Nat) :
    (printCommentsFuel n "b.T" (getPostsAndComments "b" cycleStore).2 i).length
      = 6 * n := by
  induction n generalizing i with
  | zero => rfl
  | succ n ih =>
    rw [printCommentsFuel, cycleStore_cbp, List.flatMap_cons, List.flatMap_nil,
      List.append_nil, List.length_append,
      show (makeComment "b" "b.T" "v" "hi" "b.T").permalink = "b.T" from rfl, ih]
    simp [commentBlock]
    omega

/-- C8 fails: the store reached by a post and then a comment whose
timestamp equals the post's permalink contains a reply cycle, and the
renderer's output at the post's own permalink — the tree `show` prints —
never stabilizes however much fuel it receives, mirroring the unbounded
recursion of `print_comments` on this input. -/
theorem show_termination_counterexample :
    cycleStore = execCmds [] [Cmd.post "b" "u" "T" "x" "" "100",
        Cmd.comment "b" "b.T" "v" "hi" "b.T"]
    ∧ (getPostsAndComments "b" cycleStore).1.map (fun d => d.permalink) = ["b.T"]
    ∧ ¬ ∃ n, ∀ m, n ≤ m →
        printCommentsFuel m "b.T" (getPostsAndComments "b" cycleStore).2 1
          = printCommentsFuel n "b.T" (getPostsAndComments "b" cycleStore).2 1 := by
  refine ⟨rfl, by decide, ?_⟩
  rintro ⟨n, h⟩
  have h1 := h (n + 1) (Nat.le_succ n)
  have l1 := cycleStore_length (n + 1) 1
  have l2 := cycleStore_length n 1
  rw [h1, l2] at l1
  omega

/-- C8 amended: along runs whose every insertion uses a permalink not yet
present in its blog, reply chains are acyclic, and the comment renderer
is fuel-independent — hence terminating — once the fuel reaches the
blog's document count, at every node and indentation. -/
theorem show_rendering_terminates_of_fresh (cmds : List Cmd) (b p : String) (i f g : Nat)
    (hfresh : freshRun [] cmds = true)
    (hf : (getBlog (execCmds [] cmds) b).length ≤ f)
    (hg : (getBlog (execCmds [] cmds) b).length ≤ g) :
    printCommentsFuel f p (getPostsAndComments b (execCmds [] cmds)).2 i
      = printCommentsFuel g p (getPostsAndComments b (execCmds [] cmds)).2 i := by
  have hwf := execCmds_preserves_wf cmds [] wfStore_nil hfresh b
  have hr : ∀ p' c, c ∈ (getPostsAndComments b (execCmds [] cmds)).2 p' →
      rankK ((getBlog (execCmds [] cmds) b).map docKey) p'
        < rankK ((getBlog (execCmds [] cmds) b).map docKey) c.permalink
      ∧ rankK ((getBlog (execCmds [] cmds) b).map docKey) c.permalink
        ≤ (getBlog (execCmds [] cmds) b).length := by
    intro p' c hc
    have hc0 : c ∈ List.filter (fun c => c.parent_permalink == some p')
        (sortDocs commentsLe (List.filter (fun d => d.type == "comment")
          (getBlog (execCmds [] cmds) b))) := hc
    have hc' := List.mem_filter.mp hc0
    have hc'' := hc'.1
    rw [(sortDocs_perm commentsLe _).mem_iff] at hc''
    have hc3 := List.mem_filter.mp hc''
    refine rank_child_gt _ hwf p' c hc3.1 ?_ ?_
    · simpa using hc3.2
    · simpa using hc'.2
  exact printCommentsFuel_stable (getPostsAndComments b (execCmds [] cmds)).2
    (rankK ((getBlog (execCmds [] cmds) b).map docKey))
    (getBlog (execCmds [] cmds) b).length hr
    ((getBlog (execCmds [] cmds) b).length
      - rankK ((getBlog (execCmds [] cmds) b).map docKey) p)
    p i f g rfl (by omega) (by omega)

/-- Witness for `show_rendering_terminates_of_fresh` on a fresh
two-command run: fuel 2 and fuel 7 render the post's reply tree
identically. -/
theorem show_rendering_terminates_of_fresh_witness :
    printCommentsFuel 2 "b.T" (getPostsAndComments "b" (execCmds []
        [Cmd.post "b" "u" "T" "x" "" "100", Cmd.comment "b" "b.T" "v" "hi" "101"])).2 1
      = printCommentsFuel 7 "b.T" (getPostsAndComments "b" (execCmds []
        [Cmd.post "b" "u" "T" "x" "" "100", Cmd.comment "b" "b.T" "v" "hi" "101"])).2 1 :=
  show_rendering_terminates_of_fresh
    [Cmd.post "b" "u" "T" "x" "" "100", Cmd.comment "b" "b.T" "v" "hi" "101"]
    "b" "b.T" 1 2 7 (by decide) (by decide) (by decide)

/-! Rendering reachability: lifting a comment's block up the ancestor
chain into the output of `show`. -/

/-- The comment grouping the thread assembler derives from a blog list
(`(getPostsAndComments b s).2` is definitionally `cbpOf (getBlog s b)`). -/
def cbpOf (docs : List Doc) : String → List Doc :=
  fun q => (sortDocs commentsLe (docs.filter (fun d => d.type == "comment"))).filter
    (fun c => c.parent_permalink == some q)

theorem getPostsAndComments_snd (b : String) (s : Store) :
    (getPostsAndComments b s).2 = cbpOf (getBlog s b) := rfl

/-- A line printed at some fuel is still printed at any larger fuel: the
renderer only explores deeper with more fuel. -/
theorem printCommentsFuel_mono (cbp : String → List Doc) :
    ∀ (f g : Nat) (p : String) (i : Nat) (line : String), f ≤ g →
      line ∈ printCommentsFuel f p cbp i → line ∈ printCommentsFuel g p cbp i := by
  intro f
  induction f with
  | zero =>
    intro g p i line _ h
    exact absurd h (by rw [printCommentsFuel]; simp)
  | succ f ih =>
    intro g p i line hfg h
    obtain ⟨g', rfl⟩ : ∃ g', g = g' + 1 := ⟨g - 1, by omega⟩
    rw [printCommentsFuel, List.mem_flatMap] at h ⊢
    obtain ⟨c, hc, hmem⟩ := h
    refine ⟨c, hc, ?_⟩
    rcases List.mem_append.mp hmem with hmem | hmem
    · exact List.mem_append_left _ hmem
    · exact List.mem_append_right _ (ih g' c.permalink (i + 1) line (by omega) hmem)

/-- A line rendered inside a child's subtree is rendered from the parent
with one more unit of fuel, one indentation level higher. -/
theorem printCommentsFuel_lift (cbp : String → List Doc) (q : String) (x : Doc)
    (hx : x ∈ cbp q) (line : String) (f i : Nat)
    (h : line ∈ printCommentsFuel f x.permalink cbp (i + 1)) :
    line ∈ printCommentsFuel (f + 1) q cbp i := by
  rw [printCommentsFuel, List.mem_flatMap]
  exact ⟨x, hx, List.mem_append_right _ h⟩

/-- Every document the interpreter stores is a post or a comment. -/
def typesOK (docs : List Doc) : Prop :=
  ∀ d ∈ docs, d.type = "post" ∨ d.type = "comment"

/-- `typesOK` for every blog of a store. -/
def typesStore (s : Store) : Prop := ∀ b, typesOK (getBlog s b)

theorem typesOK_of_docKey_eq (docs docs' : List Doc)
    (h : docs'.map docKey = docs.map docKey) (ht : typesOK docs) : typesOK docs' := by
  intro d' hd'
  have hk : docKey d' ∈ docs.map docKey := h ▸ List.mem_map_of_mem docKey hd'
  obtain ⟨e, he, hke⟩ := List.mem_map.mp hk
  have hts : e.type = d'.type := congrArg (fun k => k.2.1) hke
  rw [← hts]
  exact ht e he

theorem step_preserves_types (s : Store) (c : Cmd) (ht : typesStore s) :
    typesStore (step s c).1 := by
  cases c with
  | post b u ti bo tg ts =>
    intro b'
    by_cases hb : b' = b
    · subst hb
      show typesOK (getBlog (setBlog s b' _) b')
      rw [getBlog_setBlog_self]
      intro d hd
      rcases List.mem_append.mp hd with hd | hd
      · exact ht b' d hd
      · left
        have : d = makePost b' u ti bo tg ts := by simpa using hd
        rw [this]
        rfl
    · show typesOK (getBlog (setBlog s b _) b')
      rw [getBlog_setBlog_ne s b b' _ hb]
      exact ht b'
  | comment b p u bo ts =>
    cases hl : lookupPermalink (getBlog s b) p with
    | none =>
      intro b'
      have : (step s (Cmd.comment b p u bo ts)).1 = s := by simp [step, hl]
      rw [this]
      exact ht b'
    | some parent =>
      have hstep : (step s (Cmd.comment b p u bo ts)).1
          = setBlog s b (getBlog s b ++ [makeComment b p u bo ts]) := by
        simp [step, hl]
      intro b'
      rw [hstep]
      by_cases hb : b' = b
      · subst hb
        rw [getBlog_setBlog_self]
        intro d hd
        rcases List.mem_append.mp hd with hd | hd
        · exact ht b' d hd
        · right
          have : d = makeComment b' p u bo ts := by simpa using hd
          rw [this]
          rfl
      · rw [getBlog_setBlog_ne s b b' _ hb]
        exact ht b'
  | delete b p u ts =>
    cases hd : deleteFirst (getBlog s b) p u ts with
    | none =>
      intro b'
      have : (step s (Cmd.delete b p u ts)).1 = s := by simp [step, hd]
      rw [this]
      exact ht b'
    | some docs' =>
      have hstep : (step s (Cmd.delete b p u ts)).1 = setBlog s b docs' := by
        simp [step, hd]
      intro b'
      rw [hstep]
      by_cases hb : b' = b
      · subst hb
        rw [getBlog_setBlog_self]
        exact typesOK_of_docKey_eq _ _ (deleteFirst_map_docKey (getBlog s b') p u ts docs' hd)
          (ht b')
      · rw [getBlog_setBlog_ne s b b' _ hb]
        exact ht b'
  | showCmd b => exact ht
  | findCmd b q => exact ht

theorem execCmds_preserves_types (cmds : List Cmd) (s : Store) (ht : typesStore s) :
    typesStore (execCmds s cmds) := by
  induction cmds generalizing s with
  | nil => exact ht
  | cons c rest ih => exact ih (step s c).1 (step_preserves_types s c ht)

theorem typesStore_nil : typesStore [] := by
  intro b d hd
  exact absurd hd (by simp [getBlog, List.lookup])

theorem execCmds_append (l1 l2 : List Cmd) (s : Store) :
    execCmds s (l1 ++ l2) = execCmds (execCmds s l1) l2 := by
  induction l1 generalizing s with
  | nil => rfl
  | cons c l1 ih => rw [List.cons_append, execCmds, execCmds, ih]

theorem freshRun_append (l1 l2 : List Cmd) (s : Store) :
    freshRun s (l1 ++ l2) = (freshRun s l1 && freshRun (execCmds s l1) l2) := by
  induction l1 generalizing s with
  | nil => simp [freshRun, execCmds]
  | cons c l1 ih =>
    rw [List.cons_append, freshRun, freshRun, ih, execCmds, Bool.and_assoc]

/-- A document that is a comment with parent `q` belongs to the parent
group of `q`. -/
theorem mem_cbpOf (docs : List Doc) (c : Doc) (q : String) (hc : c ∈ docs)
    (hty : c.type = "comment") (hpar : c.parent_permalink = some q) :
    c ∈ cbpOf docs q := by
  refine List.mem_filter.mpr ⟨?_, by simp [hpar]⟩
  rw [(sortDocs_perm commentsLe _).mem_iff]
  exact List.mem_filter.mpr ⟨hc, by simp [hty]⟩

/-- In a well-formed list, a comment's parent reference names the
permalink of some stored document. -/
theorem wf_parent (docs : List Doc) (hwf : wfDocs docs) (c : Doc) (hc : c ∈ docs)
    (hty : c.type = "comment") :
    ∃ q, c.parent_permalink = some q ∧ ∃ e ∈ docs, e.permalink = q := by
  obtain ⟨-, hpe⟩ := hwf
  have hkmem : docKey c ∈ docs.map docKey := List.mem_map_of_mem docKey hc
  obtain ⟨m1, m2, hsplit⟩ := List.append_of_mem hkmem
  obtain ⟨q, hq, ekey, hekey, hep⟩ :=
    parentsEarlierK_split (docs.map docKey) [] m1 (docKey c) m2 hpe hsplit hty
  have hekey' : ekey ∈ docs.map docKey := by
    rw [hsplit]
    exact List.mem_append_left _ (by simpa using hekey)
  obtain ⟨e, he, hke⟩ := List.mem_map.mp hekey'
  refine ⟨q, hq, e, he, ?_⟩
  rw [show e.permalink = (docKey e).1 from rfl, hke]
  exact hep

/-- A stored post belongs to the assembled post list. -/
theorem mem_sorted_posts (docs : List Doc) (d : Doc) (hd : d ∈ docs)
    (hty : d.type = "post") :
    d ∈ sortDocs postsLe (docs.filter (fun x => x.type == "post")) := by
  rw [(sortDocs_perm postsLe _).mem_iff]
  exact List.mem_filter.mpr ⟨hd, by simp [hty]⟩

/-- Ascent along the ancestor chain: if the target line is rendered from
a stored node within its rank-measured fuel, it is rendered, within the
same budget, from some stored post — the root `show` starts from. Ranks
strictly decrease towards the root, so the chain is finite. -/
theorem ascend_to_post (docs : List Doc) (hwf : wfDocs docs) (hty : typesOK docs)
    (t : String) :
    ∀ n (q : String) (qdoc : Doc), qdoc ∈ docs → qdoc.permalink = q →
      rankK (docs.map docKey) q = n →
      (∀ i, ∃ k, (indentStr (i + k) ++ "\tpermalink: " ++ t)
        ∈ printCommentsFuel (docs.length - rankK (docs.map docKey) q + 1) q
            (cbpOf docs) i) →
      ∃ rdoc, rdoc ∈ docs ∧ rdoc.type = "post"
        ∧ ∀ i, ∃ k, (indentStr (i + k) ++ "\tpermalink: " ++ t)
            ∈ printCommentsFuel
                (docs.length - rankK (docs.map docKey) rdoc.permalink + 1)
                rdoc.permalink (cbpOf docs) i := by
  intro n
  induction n using Nat.strong_induction_on with
  | _ n ih =>
    intro q qdoc hq hqp hrank hinv
    rcases hty qdoc hq with hpost | hcomment
    · refine ⟨qdoc, hq, hpost, ?_⟩
      rw [hqp]
      exact hinv
    · obtain ⟨q', hq', e, he, hep⟩ := wf_parent docs hwf qdoc hq hcomment
      have hranklt := rank_child_gt docs hwf q' qdoc hq hcomment hq'
      rw [hqp] at hranklt
      have hinv' : ∀ i, ∃ k, (indentStr (i + k) ++ "\tpermalink: " ++ t)
          ∈ printCommentsFuel (docs.length - rankK (docs.map docKey) q' + 1) q'
              (cbpOf docs) i := by
        intro i
        obtain ⟨k, hk⟩ := hinv (i + 1)
        have hk' : (indentStr (i + (k + 1)) ++ "\tpermalink: " ++ t)
            ∈ printCommentsFuel (docs.length - rankK (docs.map docKey) q + 1)
                qdoc.permalink (cbpOf docs) (i + 1) := by
          rw [hqp, show i + (k + 1) = i + 1 + k by omega]
          exact hk
        have hlift := printCommentsFuel_lift (cbpOf docs) q' qdoc
          (mem_cbpOf docs qdoc q' hq hcomment hq') _ _ i hk'
        refine ⟨k + 1, printCommentsFuel_mono (cbpOf docs) _ _ q' i _ ?_ hlift⟩
        omega
      exact ih (rankK (docs.map docKey) q') (by omega) q' e he hep rfl hinv'

/-- C2 fails: on the reachable store holding a self-parenting comment
(timestamp `b.T` equal to the post's permalink), the next comment command
is perfectly valid — its target `b.T` resolves to the post, the inserted
document carries permalink `zzz` and parent `b.T` and joins the parent's
group — yet the rendering `show` performs from its only root never
stabilizes at any fuel: the program's `show` dies in the cycle (a
`RecursionError`) before the valid comment's block is ever printed. -/
def cycle2Store : Store :=
  execCmds [] [Cmd.post "b" "u" "T" "x" "" "100",
    Cmd.comment "b" "b.T" "v" "hi" "b.T",
    Cmd.comment "b" "b.T" "w" "yo" "zzz"]

theorem cycle2Store_cbp :
    (getPostsAndComments "b" cycle2Store).2 "b.T"
      = [makeComment "b" "b.T" "v" "hi" "b.T", makeComment "b" "b.T" "w" "yo" "zzz"] := by
  decide

theorem cycle2Store_cbp_zzz :
    (getPostsAndComments "b" cycle2Store).2 "zzz" = [] := by decide

theorem cycle2Store_length (n i : Nat) :
    (printCommentsFuel n "b.T" (getPostsAndComments "b" cycle2Store).2 i).length
      = 12 * n := by
  induction n generalizing i with
  | zero => rfl
  | succ n ih =>
    rw [printCommentsFuel, cycle2Store_cbp, List.flatMap_cons, List.flatMap_cons,
      List.flatMap_nil, List.append_nil,
      show (makeComment "b" "b.T" "v" "hi" "b.T").permalink = "b.T" from rfl,
      show (makeComment "b" "b.T" "w" "yo" "zzz").permalink = "zzz" from rfl,
      printCommentsFuel_nil _ _ cycle2Store_cbp_zzz]
    simp only [List.length_append, ih]
    simp [commentBlock]
    omega

/-- C2 counterexample: the valid third command's insertion facts all
hold, `show`'s only root is the post `b.T`, but the comment tree `show`
renders from that root never stabilizes, so no complete `show` output
containing the new comment exists. -/
theorem comment_show_crash_counterexample :
    lookupPermalink (getBlog (execCmds [] [Cmd.post "b" "u" "T" "x" "" "100",
        Cmd.comment "b" "b.T" "v" "hi" "b.T"]) "b") "b.T"
      = some (makePost "b" "u" "T" "x" "" "100")
    ∧ cycle2Store = (step (execCmds [] [Cmd.post "b" "u" "T" "x" "" "100",
        Cmd.comment "b" "b.T" "v" "hi" "b.T"]) (Cmd.comment "b" "b.T" "w" "yo" "zzz")).1
    ∧ getBlog cycle2Store "b"
      = getBlog (execCmds [] [Cmd.post "b" "u" "T" "x" "" "100",
          Cmd.comment "b" "b.T" "v" "hi" "b.T"]) "b" ++ [makeComment "b" "b.T" "w" "yo" "zzz"]
    ∧ (makeComment "b" "b.T" "w" "yo" "zzz").permalink = "zzz"
    ∧ (makeComment "b" "b.T" "w" "yo" "zzz").parent_permalink = some "b.T"
    ∧ makeComment "b" "b.T" "w" "yo" "zzz" ∈ (getPostsAndComments "b" cycle2Store).2 "b.T"
    ∧ (getPostsAndComments "b" cycle2Store).1.map (fun d => d.permalink) = ["b.T"]
    ∧ ¬∃ n, ∀ m, n ≤ m →
        printCommentsFuel m "b.T" (getPostsAndComments "b" cycle2Store).2 1
          = printCommentsFuel n "b.T" (getPostsAndComments "b" cycle2Store).2 1 := by
  refine ⟨by decide, rfl, by decide, rfl, rfl, by decide, by decide, ?_⟩
  rintro ⟨n, h⟩
  have h1 := h (n + 1) (Nat.le_succ n)
  have l1 := cycle2Store_length (n + 1) 1
  have l2 := cycle2Store_length n 1
  rw [h1, l2] at l1
  omega

/-- C2 amended: a comment command whose target resolves appends one
Comment document whose own permalink is the command's timestamp and
whose `parent_permalink` is the resolved target; the comment joins the
target's parent group, and whenever the parent's children are rendered
(one level below the parent, at any indentation and positive fuel) its
block appears. If moreover the run that built the store — this command
included — inserts only fresh permalinks, the condition under which
`show`'s recursion terminates, then a subsequent `show` of the owning
blog actually renders the comment: its permalink line appears, indented,
in the `show` output. -/
theorem comment_rendered_in_show (cmds : List Cmd) (b p u bo t : String) (d : Doc)
    (ind fuel : Nat)
    (hfound : lookupPermalink (getBlog (execCmds [] cmds) b) p = some d)
    (hfresh : freshRun [] (cmds ++ [Cmd.comment b p u bo t]) = true) :
    getBlog (step (execCmds [] cmds) (Cmd.comment b p u bo t)).1 b
      = getBlog (execCmds [] cmds) b ++ [makeComment b p u bo t]
    ∧ (makeComment b p u bo t).permalink = t
    ∧ (makeComment b p u bo t).parent_permalink = some p
    ∧ makeComment b p u bo t
        ∈ (getPostsAndComments b (step (execCmds [] cmds) (Cmd.comment b p u bo t)).1).2 p
    ∧ (indentStr ind ++ "\tpermalink: " ++ t)
        ∈ printCommentsFuel (fuel + 1) p
            (getPostsAndComments b (step (execCmds [] cmds) (Cmd.comment b p u bo t)).1).2 ind
    ∧ ∃ k, (indentStr k ++ "\tpermalink: " ++ t)
        ∈ processShow b (step (execCmds [] cmds) (Cmd.comment b p u bo t)).1 := by
  obtain ⟨hget, hmem⟩ :=
    comment_insert_spec (execCmds [] cmds) b p u bo t d hfound
  have hsexec : (step (execCmds [] cmds) (Cmd.comment b p u bo t)).1
      = execCmds [] (cmds ++ [Cmd.comment b p u bo t]) := by
    rw [execCmds_append]
    rfl
  have hwf : wfDocs (getBlog (step (execCmds [] cmds) (Cmd.comment b p u bo t)).1 b) := by
    rw [hsexec]
    exact execCmds_preserves_wf _ [] wfStore_nil hfresh b
  have hty : typesOK (getBlog (step (execCmds [] cmds) (Cmd.comment b p u bo t)).1 b) := by
    rw [hsexec]
    exact execCmds_preserves_types _ [] typesStore_nil b
  refine ⟨hget, rfl, rfl, hmem, mem_printCommentsFuel fuel p _ ind _ hmem, ?_⟩
  have hd : d ∈ getBlog (step (execCmds [] cmds) (Cmd.comment b p u bo t)).1 b := by
    rw [hget]
    exact List.mem_append_left _ (List.mem_of_find?_eq_some hfound)
  have hdp : d.permalink = p := by
    have := List.find?_some hfound
    simpa using this
  have hmem' : makeComment b p u bo t
      ∈ cbpOf (getBlog (step (execCmds [] cmds) (Cmd.comment b p u bo t)).1 b) p := hmem
  have hbase : ∀ i, ∃ k, (indentStr (i + k) ++ "\tpermalink: " ++ t)
      ∈ printCommentsFuel
          ((getBlog (step (execCmds [] cmds) (Cmd.comment b p u bo t)).1 b).length
            - rankK ((getBlog (step (execCmds [] cmds) (Cmd.comment b p u bo t)).1 b).map
                docKey) p + 1) p
          (cbpOf (getBlog (step (execCmds [] cmds) (Cmd.comment b p u bo t)).1 b)) i := by
    intro i
    exact ⟨0, mem_printCommentsFuel _ p _ i _ hmem'⟩
  obtain ⟨rdoc, hr, hrty, hrinv⟩ :=
    ascend_to_post (getBlog (step (execCmds [] cmds) (Cmd.comment b p u bo t)).1 b)
      hwf hty t (rankK ((getBlog (step (execCmds [] cmds)
        (Cmd.comment b p u bo t)).1 b).map docKey) p) p d hd hdp rfl hbase
  obtain ⟨k, hk⟩ := hrinv 1
  refine ⟨1 + k, ?_⟩
  have hfuelmem : (indentStr (1 + k) ++ "\tpermalink: " ++ t)
      ∈ printCommentsFuel
          (showFuel (step (execCmds [] cmds) (Cmd.comment b p u bo t)).1 b)
          rdoc.permalink
          (getPostsAndComments b (step (execCmds [] cmds) (Cmd.comment b p u bo t)).1).2
          1 :=
    printCommentsFuel_mono _ _ _ rdoc.permalink 1 _ (by
      show _ - _ + 1 ≤ _ + 1
      omega) hk
  have hroot : rdoc ∈ (getPostsAndComments b
      (step (execCmds [] cmds) (Cmd.comment b p u bo t)).1).1 :=
    mem_sorted_posts _ rdoc hr hrty
  show (indentStr (1 + k) ++ "\tpermalink: " ++ t)
    ∈ ["in " ++ b ++ ":", ""]
      ++ (getPostsAndComments b (step (execCmds [] cmds) (Cmd.comment b p u bo t)).1).1.flatMap
        (fun post => postBlock post
          ++ printCommentsFuel (showFuel (step (execCmds [] cmds)
              (Cmd.comment b p u bo t)).1 b) post.permalink
            (getPostsAndComments b (step (execCmds [] cmds) (Cmd.comment b p u bo t)).1).2 1
          ++ [""])
  refine List.mem_append_right _ ?_
  rw [List.mem_flatMap]
  exact ⟨rdoc, hroot, List.mem_append_left _ (List.mem_append_right _ hfuelmem)⟩

/-- Witness for `comment_rendered_in_show`: one fresh post then one fresh
comment; the comment's permalink line is rendered by the subsequent
`show`. -/
theorem comment_rendered_in_show_witness :
    getBlog (step (execCmds [] [Cmd.post "b" "u" "T" "x" "" "100"])
        (Cmd.comment "b" "b.T" "v" "hi" "101")).1 "b"
      = getBlog (execCmds [] [Cmd.post "b" "u" "T" "x" "" "100"]) "b"
          ++ [makeComment "b" "b.T" "v" "hi" "101"]
    ∧ (makeComment "b" "b.T" "v" "hi" "101").permalink = "101"
    ∧ (makeComment "b" "b.T" "v" "hi" "101").parent_permalink = some "b.T"
    ∧ makeComment "b" "b.T" "v" "hi" "101"
        ∈ (getPostsAndComments "b" (step (execCmds [] [Cmd.post "b" "u" "T" "x" "" "100"])
            (Cmd.comment "b" "b.T" "v" "hi" "101")).1).2 "b.T"
    ∧ (indentStr 1 ++ "\tpermalink: " ++ "101")
        ∈ printCommentsFuel (0 + 1) "b.T"
            (getPostsAndComments "b" (step (execCmds [] [Cmd.post "b" "u" "T" "x" "" "100"])
              (Cmd.comment "b" "b.T" "v" "hi" "101")).1).2 1
    ∧ ∃ k, (indentStr k ++ "\tpermalink: " ++ "101")
        ∈ processShow "b" (step (execCmds [] [Cmd.post "b" "u" "T" "x" "" "100"])
            (Cmd.comment "b" "b.T" "v" "hi" "101")).1 :=
  comment_rendered_in_show [Cmd.post "b" "u" "T" "x" "" "100"] "b" "b.T" "v" "hi" "101"
    (makePost "b" "u" "T" "x" "" "100") 1 0 (by decide) (by decide)

end Lab4
